import Mathlib

set_option maxRecDepth 8000

namespace NQS

/-! Shallow embedding of the nqs_playground sources (`nqs_playground/monte_carlo.py` and
`nqs_playground/hamiltonian.py`).  Machine floating-point values are modelled as exact
rationals; `torch.exp` enters as an abstract function parameter `pexp` where a claim needs
it (its only property used by any claim is strict positivity, supplied as a hypothesis). -/

/-- Boolean success test for `Except` (Python: "the constructor returned normally"). -/
def exceptIsOk {ε α : Type} : Except ε α → Bool
  | Except.ok _ => true
  | Except.error _ => false

/-- SamplingOptions (monte_carlo.py, lines 23-68), minus the `torch.device` field, which no
claim touches.  The fields are the values stored by `__init__` after validation. -/
structure SamplingOptions where
  number_samples : Int
  number_chains : Int
  number_discarded : Int
  sweep_size : Int
deriving DecidableEq, Repr

/-- Embedding of `SamplingOptions.__init__` (monte_carlo.py, lines 26-68).  The checks run
in source order and the first violated one raises ValueError (modelled as `Except.error`
carrying the start of the message).  Passing `number_discarded=None` is `none`, and the
default is `number_samples // 10`; the division is reached only after `number_samples > 0`
has been established, where Python floor division agrees with `Int` division. -/
def SamplingOptions.make (number_samples number_chains : Int)
    (number_discarded : Option Int) (sweep_size : Int) :
    Except String SamplingOptions :=
  if number_samples ≤ 0 then Except.error ("negative number_samples")
  else if number_chains ≤ 0 then Except.error ("negative number_chains")
  else
    match number_discarded with
    | some d =>
      if d ≤ 0 then Except.error ("invalid number_discarded")
      else if sweep_size ≤ 0 then Except.error ("negative sweep_size")
      else Except.ok ⟨number_samples, number_chains, d, sweep_size⟩
    | none =>
      if sweep_size ≤ 0 then Except.error ("negative sweep_size")
      else Except.ok ⟨number_samples, number_chains, number_samples / 10, sweep_size⟩

/-- Embedding of Python's `random.randint(a, b)`, which draws uniformly from the closed
interval `[a, b]`: an arbitrary natural `draw` is reduced modulo the interval size
`b - a + 1`, so the image over all draws is exactly `[a, b]`. -/
def randint (a b draw : Nat) : Nat := a + draw % (b - a + 1)

/-- Embedding of `_random_spin_configuration(n, hamming_weight=None)` (monte_carlo.py,
lines 329-336), branch `hamming_weight is None` (line 336): `randint(0, 1 << n - 1)`.
Python parses `1 << n - 1` as `1 << (n - 1)`, so the inclusive upper bound passed to
`randint` is `2 ^ (n - 1)`, not `2 ^ n - 1`. -/
def random_spin_configuration (n draw : Nat) : Nat := randint 0 (2 ^ (n - 1)) draw

/-- Embedding of `torch.isclose` on real-valued (double) entries, per the torch
documentation (with `equal_nan=False`): close iff `|a - b| ≤ atol + rtol * |b|`.  The
complex values compared in hamiltonian.py use the complex modulus; real-valued entries
(imaginary part zero) reduce to the absolute value modelled here. -/
def torch_isclose (rtol atol a b : ℚ) : Bool := decide (|a - b| ≤ atol + rtol * |b|)

/-- `_isclose` (hamiltonian.py, lines 116-117): `torch.isclose` with `rtol=5e-5`,
`atol=5e-7`.  It is defined in the source but the call to it inside `log_apply`'s debug
branch (line 148) is commented out. -/
def torch_isclose_custom (a b : ℚ) : Bool := torch_isclose (5 / 100000) (5 / 10000000) a b

/-- `torch.isclose` with its default tolerances `rtol=1e-5`, `atol=1e-8`; this is what
`log_apply`'s debug branch actually calls (hamiltonian.py, lines 147 and 150). -/
def torch_isclose_default (a b : ℚ) : Bool := torch_isclose (1 / 100000) (1 / 100000000) a b

/-- The aggregate debug check of `log_apply` (hamiltonian.py, line 147):
`torch.all(torch.isclose(log_h_psi, _log_h_psi_py))` with default tolerances, over the
zipped entries of the accelerated (`cxx`) and reference (`py`) result vectors.  The
accelerated values come from the external C++ extension and enter the model as inputs.
The elementwise zip is rendered index-wise over the common length. -/
def log_apply_debug_passes (cxx py : List ℚ) : Bool :=
  (List.range (min cxx.length py.length)).all (fun i =>
    torch_isclose_default (cxx.getD i 0) (py.getD i 0))

/-- The mismatch report of `log_apply`'s debug branch (hamiltonian.py, lines 149-151):
`for i, (e_cxx, e_py) in enumerate(zip(...))`, logging index and both values for every
entry failing `torch.isclose` (default tolerances), before the `assert False` on
line 152.  The enumerate-zip-filter loop is rendered index-wise over the common length. -/
def log_apply_debug_mismatches (cxx py : List ℚ) : List (Nat × ℚ × ℚ) :=
  (List.range (min cxx.length py.length)).filterMap (fun i =>
    cond (torch_isclose_default (cxx.getD i 0) (py.getD i 0)) none
      (some (i, cxx.getD i 0, py.getD i 0)))

/-- Modelled from the claim's words (for comparison with the code's actual check): the
per-entry comparison at `rtol=5e-5`, `atol=5e-7` that the claim describes, i.e. what the
debug branch would compute had the commented-out `_isclose` call (line 148) been used. -/
def claimed_debug_passes (cxx py : List ℚ) : Bool :=
  (List.range (min cxx.length py.length)).all (fun i =>
    torch_isclose_custom (cxx.getD i 0) (py.getD i 0))

/-- The maximum over the elements of a tensor (`torch.max`, which errors on empty input),
rendered as a left fold over the list of entries seeded with the first entry. -/
def tensor_max (x : List ℚ) : ℚ := x.foldl max x.headI

/-- `safe_exp` (monte_carlo.py, lines 374-380): subtract the maximum entry, exponentiate
elementwise (`pexp` stands for `torch.exp_`), and, when `normalise` is set, divide every
entry by the sum of the exponentiated entries. -/
def safe_exp (pexp : ℚ → ℚ) (x : List ℚ) (normalise : Bool) : List ℚ :=
  let y := x.map (fun v => pexp (v - tensor_max x))
  if normalise then y.map (fun v => v / y.sum) else y

/-- `np.mean` of a 1-D array. -/
def np_mean (x : List ℚ) : ℚ := x.sum / x.length

/-- Linear autocovariance at lag `k` of a (mean-centred) sequence `d`:
`c_k = sum over i of d_i * d_(i+k)`. -/
def autocov (d : List ℚ) (k : Nat) : ℚ :=
  ((List.range (d.length - k)).map (fun i => d.getD i 0 * d.getD (i + k) 0)).sum

/-- `autocorr_function` (monte_carlo.py, lines 383-397).  The source computes, via an FFT
of the mean-centred sequence zero-padded to length `2n` with `n` the next power of two at
least `len(x)`, the circular autocorrelation of the padded sequence truncated to `len(x)`
lags.  Because the padded length `2n` is at least `2 * len(x)`, every wrap-around term
multiplies into the zero padding, so in exact arithmetic the computed values coincide with
the linear autocovariances `autocov` embedded here; line 396 normalises by the lag-0
value. -/
def autocorr_function (x : List ℚ) : List ℚ :=
  let d := x.map (fun v => v - np_mean x)
  let a := (List.range x.length).map (fun k => autocov d k)
  a.map (fun v => v / a.headI)

/-- Column `j` of a time-major matrix (`x[:, j]`). -/
def matColumn (x : List (List ℚ)) (j : Nat) : List ℚ := x.map (fun row => row.getD j 0)

/-- The chain-averaged autocorrelation function `f` of `integrated_autocorr_time`
(monte_carlo.py, lines 410-413): the sum of `autocorr_function(x[:, i])` over all chains
`i`, divided by the number of chains `x.shape[1]`. -/
def avg_autocorr (x : List (List ℚ)) : List ℚ :=
  (List.range x.length).map (fun t =>
    (((List.range x.headI.length).map (fun j =>
        (autocorr_function (matColumn x j)).getD t 0)).sum) / (x.headI.length : ℚ))

/-- `np.cumsum` of a 1-D array. -/
def np_cumsum (l : List ℚ) : List ℚ :=
  (List.range l.length).map (fun i => (l.take (i + 1)).sum)

/-- `taus = 2.0 * np.cumsum(f) - 1.0` (monte_carlo.py, line 414). -/
def tausOf (x : List (List ℚ)) : List ℚ :=
  (np_cumsum (avg_autocorr x)).map (fun v => 2 * v - 1)

/-- Index of the first `false` in a boolean list, if any. -/
def firstFalse : List Bool → Option Nat
  | [] => none
  | false :: _ => some 0
  | true :: t => (firstFalse t).map (fun i => i + 1)

/-- Index of the first `true` in a boolean list, if any. -/
def firstTrue : List Bool → Option Nat
  | [] => none
  | true :: _ => some 0
  | false :: t => (firstTrue t).map (fun i => i + 1)

/-- `np.argmin` on a boolean mask: numpy orders `False < True` and `argmin` returns the
index of the FIRST occurrence of the minimum, i.e. the first `False` when one exists, and
index 0 when all entries are `True` (all entries equal the minimum). -/
def np_argmin_bool (m : List Bool) : Nat := (firstFalse m).getD 0

/-- The boolean mask built by `_auto_window` (monte_carlo.py, line 401):
`m = np.arange(len(taus)) < c * taus`, elementwise. -/
def window_mask (taus : List ℚ) (c : ℚ) : List Bool :=
  (List.range taus.length).map (fun (i : Nat) => decide ((i : ℚ) < c * taus.getD i 0))

/-- `_auto_window` (monte_carlo.py, lines 400-404): `if np.any(m): return np.argmin(m);
return len(taus) - 1`. -/
def auto_window (taus : List ℚ) (c : ℚ) : Nat :=
  if (window_mask taus c).any (fun b => b) then np_argmin_bool (window_mask taus c)
  else taus.length - 1

/-- `integrated_autocorr_time` (monte_carlo.py, lines 407-416): average the per-chain
autocorrelation functions, form `taus`, and return `taus[_auto_window(taus, c)]`. -/
def integrated_autocorr_time (x : List (List ℚ)) (c : ℚ) : ℚ :=
  (tausOf x).getD (auto_window (tausOf x) c) 0

/-- Modelled from the claim's words (for comparison with `auto_window`): the window the
claim describes — the smallest index `M` with `M < c * taus[M]` when one exists, else the
last index. -/
def claimed_window (taus : List ℚ) (c : ℚ) : Nat :=
  match firstTrue (window_mask taus c) with
  | some i => i
  | none => taus.length - 1

/-- The per-chain Markov state of `metropolis_process`: the spin configuration, its norm
(the proposal-density correction weight), and its log-probability.  In the source these
live in three parallel tensors indexed by chain (monte_carlo.py, lines 184-195). -/
structure ChainState where
  state : Int
  norm : ℚ
  log_prob : ℚ
deriving DecidableEq, Repr

/-- The random inputs consumed by one chain of `metropolis_process`, indexed by the global
elementary-step counter: `kernel t s` is the proposal (state and norm) that `kernel_fn`
generates at step `t` from current state `s`, and `u t` is that chain's entry of the
`torch.rand` vector drawn at step `t`.  Every tensor operation in `sweep` (monte_carlo.py,
lines 197-209) is elementwise across the chain dimension, so the batched process is the
per-chain process run in parallel, each chain with its own streams. -/
structure ChainStreams where
  kernel : Nat → Int → Int × ℚ
  u : Nat → ℚ

instance : Inhabited ChainStreams := ⟨⟨fun _ s => (s, 1), fun _ => 0⟩⟩

/-- One elementary Metropolis step for one chain (monte_carlo.py, lines 200-209): given
the proposal `prop = (s', norm')` and the uniform draw `uu`, compute
`r = uu * norm' / norm` and accept iff `norm' > 0` and
`r <= pexp(log_prob' - log_prob)`; on acceptance the state, norm and log-probability are
all replaced by the proposed values, otherwise all three are retained.  The returned flag
is this chain's entry of the `t` mask added to `accepted` (line 209). -/
def mcStep (pexp : ℚ → ℚ) (lp : Int → ℚ) (c : ChainState) (prop : Int × ℚ) (uu : ℚ) :
    ChainState × Bool :=
  let lp' := lp prop.1
  let r := uu * prop.2 / c.norm
  if 0 < prop.2 ∧ r ≤ pexp (lp' - c.log_prob) then (⟨prop.1, prop.2, lp'⟩, true)
  else (c, false)

/-- The body of the elementary-step loop inside `sweep()` for one chain: `p` carries the
current chain state and accepted counter, `j` is the loop index within the sweep, and `k`
the sweep's index in the whole run (so stream entries `k * sweep_size + j` are consumed). -/
def sweepStepFn (pexp : ℚ → ℚ) (lp : Int → ℚ) (st : ChainStreams) (sweep_size k : Nat)
    (p : ChainState × Nat) (j : Nat) : ChainState × Nat :=
  let s := mcStep pexp lp p.1 (st.kernel (k * sweep_size + j) p.1.state)
    (st.u (k * sweep_size + j))
  (s.1, p.2 + (if s.2 then 1 else 0))

/-- One `sweep()` call (monte_carlo.py, lines 197-209) for one chain: `sweep_size`
elementary steps, threading the chain state and accumulating the accepted counter. -/
def sweepChain (pexp : ℚ → ℚ) (lp : Int → ℚ) (st : ChainStreams) (sweep_size k : Nat)
    (ca : ChainState × Nat) : ChainState × Nat :=
  (List.range sweep_size).foldl (sweepStepFn pexp lp st sweep_size k) ca

/-- The thermalisation phase for one chain (monte_carlo.py, lines 184-187 and 211-213):
build the initial chain state (with `log_prob = log_prob_fn(state)`) and run
`number_discarded` sweeps (sweeps number `0 .. number_discarded - 1` of the run),
accumulating acceptances (all of which are discarded by the reset on line 216). -/
def thermalRun (pexp : ℚ → ℚ) (lp : Int → ℚ) (st : ChainStreams) (nd sweep_size : Nat)
    (ini : Int × ℚ) : ChainState × Nat :=
  (List.range nd).foldl (fun ca k => sweepChain pexp lp st sweep_size k ca)
    (⟨ini.1, ini.2, lp ini.1⟩, 0)

/-- The chain state and production-phase acceptance counter after `i` production sweeps:
`prodChain ... 0` is the state right after thermalisation with the counter RESET to zero
(`accepted.fill_(0)`, monte_carlo.py line 216), and production sweep `i` is the run's
sweep number `nd + i`. -/
def prodChain (pexp : ℚ → ℚ) (lp : Int → ℚ) (st : ChainStreams) (nd sweep_size : Nat)
    (ini : Int × ℚ) : Nat → ChainState × Nat
  | 0 => ((thermalRun pexp lp st nd sweep_size ini).1, 0)
  | i + 1 => sweepChain pexp lp st sweep_size (nd + i)
      (prodChain pexp lp st nd sweep_size ini i)

/-- The acceptance count of one sweep in isolation (started from a zero counter). -/
def sweepAccepts (pexp : ℚ → ℚ) (lp : Int → ℚ) (st : ChainStreams) (sweep_size k : Nat)
    (c : ChainState) : Nat :=
  (sweepChain pexp lp st sweep_size k (c, 0)).2

/-- The production loop of `metropolis_process` for one chain, rendered imperatively over
the per-chain sample buffer (monte_carlo.py, lines 188-222), after `m` iterations.  The
buffer slots (`new_empty`; the junk in unwritten slots is modelled by the initial chain
state, and every slot up to the number of samples is overwritten before use) start with
slot 0 holding the post-thermalisation state: slot 0 is written with the initial state
(lines 192-195) and `current_state`/`current_log_prob` then ALIAS slot 0, so the
thermalisation sweeps (lines 211-213) mutate slot 0 in place.  After the counter reset
(line 216), production iteration `j+1` copies slot `j` into slot `j+1`, rebinds the alias
to slot `j+1`, and runs one sweep, which mutates slot `j+1` (lines 217-222). -/
def bufFold (pexp : ℚ → ℚ) (lp : Int → ℚ) (st : ChainStreams) (nd sweep_size : Nat)
    (ini : Int × ℚ) (m : Nat) : (Nat → ChainState) × Nat :=
  (List.range m).foldl (fun p j =>
    let s := sweepChain pexp lp st sweep_size (nd + j) (p.1 j, p.2)
    (fun i => if i = j + 1 then s.1 else p.1 i, s.2))
    (fun i => if i = 0 then (thermalRun pexp lp st nd sweep_size ini).1
      else ⟨ini.1, ini.2, lp ini.1⟩, 0)

/-- One chain of `metropolis_process`, whole run: the sample buffer (as a function from
slot index to chain state) and the final production acceptance counter; the production
loop `for i in range(1, number_samples)` performs `n - 1` iterations. -/
def runChainBuf (pexp : ℚ → ℚ) (lp : Int → ℚ) (st : ChainStreams) (n nd sweep_size : Nat)
    (ini : Int × ℚ) : (Nat → ChainState) × Nat :=
  bufFold pexp lp st nd sweep_size ini (n - 1)

/-- Result of an IEEE 754 double division of exactly-represented operands
(`accepted.double() / ((number_samples - 1) * sweep_size)`, monte_carlo.py line 225):
a finite quotient when the denominator is nonzero, NaN for `0/0`, and a signed infinity
for `x/0` with `x` nonzero.  No exception is raised. -/
inductive FloatVal where
  | fin (q : ℚ)
  | posInf
  | negInf
  | nan
deriving DecidableEq, Repr

/-- IEEE 754 division on exact operands (see `FloatVal`). -/
def ieee_div (a b : ℚ) : FloatVal :=
  if b = 0 then
    (if a = 0 then FloatVal.nan else if 0 < a then FloatVal.posInf else FloatVal.negInf)
  else FloatVal.fin (a / b)

/-- `metropolis_process` (monte_carlo.py, lines 175-227).  Inputs: the abstract
exponential `pexp` (for `torch.exp`), the log-probability function `lp`, and one
`(initial (state, norm), streams)` pair per chain.  The assert `number_samples >= 1`
(line 183) is modelled by returning `none` when violated.  Output: the sample-major
`states` and `log_probs` arrays of shape `number_samples x number_chains` and the
per-chain acceptance diagnostic `accepted / ((number_samples - 1) * sweep_size)`. -/
def metropolis_process (pexp : ℚ → ℚ) (lp : Int → ℚ)
    (chains : List ((Int × ℚ) × ChainStreams)) (number_samples nd sweep_size : Nat) :
    Option (List (List Int) × List (List ℚ) × List FloatVal) :=
  if number_samples < 1 then none
  else
    let runs := chains.map (fun ch =>
      runChainBuf pexp lp ch.2 number_samples nd sweep_size ch.1)
    some ((List.range number_samples).map (fun i => runs.map (fun r => (r.1 i).state)),
      (List.range number_samples).map (fun i => runs.map (fun r => (r.1 i).log_prob)),
      runs.map (fun r =>
        ieee_div (r.2 : ℚ) (((number_samples - 1) * sweep_size : Nat) : ℚ)))

/-- Python runtime errors relevant to `sample_exactly`. -/
inductive PyError where
  | nameError (name : String)
  | valueError (msg : String)
deriving DecidableEq, Repr

/-- Shallow embedding of `sample_exactly` (monte_carlo.py, lines 247-300).  Line 260
evaluates `forward_with_batches(log_prob_fn, xs, batch_size=4096)`, but the name `xs` is
bound nowhere — not in the function body, the module, or builtins — so Python raises
`NameError: name 'xs' is not defined` while evaluating the call's arguments, right after
constructing the `states` tensor on line 259 and before `forward_with_batches` is
entered.  This happens on every call, so the rank/device validation (lines 261-272) and
the sampling logic (lines 273-300) are unreachable. -/
def sample_exactly (basisStates : List Int) (_log_prob_fn : List Int → List ℚ)
    (_number_samples _number_chains : Nat) :
    Except PyError (List (List Int) × List (List ℚ)) :=
  let _states := basisStates
  Except.error (PyError.nameError ("xs"))

section Theorems

/-- C6 counterexample: the claim asserts construction succeeds for `number_discarded ≥ 0`,
but `SamplingOptions.__init__` rejects `number_discarded = 0` (monte_carlo.py, lines
54-60, check `self.number_discarded <= 0`), so construction with the otherwise-valid
arguments `(10, 1, 0, 1)` fails. -/
theorem samplingOptions_zero_discarded_rejected :
    (0 : Int) ≥ 0 ∧
      exceptIsOk (SamplingOptions.make 10 1 (some 0) 1) = false := by
  exact ⟨le_refl 0, rfl⟩

/-- C6 amended: construction succeeds exactly when `number_samples > 0`,
`number_chains > 0`, `sweep_size > 0`, and `number_discarded` is either `None`
(defaulting to `number_samples // 10`) or strictly positive; any other value fails fast
with an error, and on success every stored field equals the given value (nothing is
clamped). -/
theorem samplingOptions_validation (ns nc sw : Int) (nd : Option Int) :
    (exceptIsOk (SamplingOptions.make ns nc nd sw) = true ↔
       (0 < ns ∧ 0 < nc ∧ (∀ d, nd = some d → 0 < d) ∧ 0 < sw)) ∧
    (∀ o, SamplingOptions.make ns nc nd sw = Except.ok o →
       o.number_samples = ns ∧ o.number_chains = nc ∧ o.sweep_size = sw ∧
         o.number_discarded = nd.getD (ns / 10)) := by
  cases nd with
  | none =>
    constructor
    · simp only [SamplingOptions.make]
      split_ifs with h1 h2 h3 <;> simp [exceptIsOk] <;> omega
    · intro o ho
      simp only [SamplingOptions.make] at ho
      split_ifs at ho
      cases ho
      simp
  | some d =>
    constructor
    · simp only [SamplingOptions.make]
      split_ifs with h1 h2 h3 h4 <;> simp [exceptIsOk] <;> intros <;> omega
    · intro o ho
      simp only [SamplingOptions.make] at ho
      split_ifs at ho
      cases ho
      simp

/-- C6 witness: `SamplingOptions.make 10 2 none 3` succeeds and stores the given values,
with the default `number_discarded = 10 / 10 = 1`. -/
theorem samplingOptions_validation_witness :
    (⟨10, 2, 1, 3⟩ : SamplingOptions).number_samples = 10 ∧
      (⟨10, 2, 1, 3⟩ : SamplingOptions).number_discarded = 1 := by
  have h := (samplingOptions_validation 10 2 3 none).2 ⟨10, 2, 1, 3⟩ (by rfl)
  exact ⟨h.1, h.2.2.2⟩

/-- C10 counterexample: at `n = 1` the full range `[0, 2^1 - 1] = {0, 1}` of 1-bit
configurations IS reachable (`2^(1-1) = 2^1 - 1 = 1`), contradicting the claim's
"for every n ≥ 1 ... the full range [0, 2^n - 1] ... is not reachable". -/
theorem random_spin_configuration_full_range_n1 :
    random_spin_configuration 1 0 = 0 ∧ random_spin_configuration 1 1 = 1 := by
  decide

/-- C10 amended: for every `n ≥ 1`, `_random_spin_configuration(n, None)` returns a value
in the closed interval `[0, 2^(n-1)]`; every value of that interval is generated by some
draw, values strictly greater than `2^(n-1)` are never generated, and for `n ≥ 2` the
full range `[0, 2^n - 1]` is not reachable (in particular `2^n - 1` is never generated);
for `n = 1` the full range `[0, 1]` is covered. -/
theorem random_spin_configuration_range (n : Nat) (_hn : 1 ≤ n) :
    (∀ d, random_spin_configuration n d ≤ 2 ^ (n - 1)) ∧
    (∀ v, 2 ^ (n - 1) < v → ∀ d, random_spin_configuration n d ≠ v) ∧
    (∀ v, v ≤ 2 ^ (n - 1) → ∃ d, random_spin_configuration n d = v) ∧
    (2 ≤ n → ∀ d, random_spin_configuration n d ≠ 2 ^ n - 1) := by
  have hb : ∀ d, random_spin_configuration n d ≤ 2 ^ (n - 1) := by
    intro d
    have hpos : 0 < 2 ^ (n - 1) + 1 := Nat.succ_pos _
    have := Nat.mod_lt d hpos
    simp only [random_spin_configuration, randint, Nat.sub_zero, Nat.zero_add]
    omega
  refine ⟨hb, ?_, ?_, ?_⟩
  · intro v hv d hd
    exact absurd (hd ▸ hb d) (by omega)
  · intro v hv
    refine ⟨v, ?_⟩
    simp only [random_spin_configuration, randint, Nat.sub_zero, Nat.zero_add]
    exact Nat.mod_eq_of_lt (by omega)
  · intro h2 d hd
    have hlt : 2 ^ (n - 1) < 2 ^ n - 1 := by
      have h1 : n = (n - 1) + 1 := by omega
      have h2' : 2 ≤ 2 ^ (n - 1) := by
        calc 2 = 2 ^ 1 := by norm_num
        _ ≤ 2 ^ (n - 1) := Nat.pow_le_pow_right (by norm_num) (by omega)
      have : 2 ^ n = 2 * 2 ^ (n - 1) := by
        conv_lhs => rw [h1]
        rw [Nat.pow_succ]
        ring
      omega
    exact absurd (hd ▸ hb d) (by omega)

/-- C10 amendment witness at `n = 3`, `draw = 9`: the result is at most `2^2 = 4`. -/
theorem random_spin_configuration_range_witness :
    random_spin_configuration 3 9 ≤ 2 ^ 2 :=
  (random_spin_configuration_range 3 (by norm_num)).1 9

/-- C2 counterexample: with accelerated value `4e-7` and reference value `0`, the
difference `4e-7` is within the claimed tolerance (`atol=5e-7`, `rtol=5e-5`), yet the
code's actual debug check (default `torch.isclose`, `atol=1e-8`, `rtol=1e-5`) fails and
surfaces the entry at index 0 with both values — so the comparison does not use the
tolerances the claim states. -/
theorem log_apply_debug_tolerance_counterexample :
    claimed_debug_passes [1 / 2500000] [0] = true ∧
    log_apply_debug_passes [1 / 2500000] [0] = false ∧
    log_apply_debug_mismatches [1 / 2500000] [0] = [(0, 1 / 2500000, 0)] := by
  have habs : |(1 : ℚ) / 2500000 - 0| = 1 / 2500000 := by
    rw [sub_zero]
    exact abs_of_pos (by norm_num)
  have hd : torch_isclose_default (1 / 2500000) 0 = false := by
    simp only [torch_isclose_default, torch_isclose, decide_eq_false_iff_not, habs, abs_zero,
      mul_zero, add_zero, not_le]
    norm_num
  have hc : torch_isclose_custom (1 / 2500000) 0 = true := by
    simp only [torch_isclose_custom, torch_isclose, decide_eq_true_eq, habs, abs_zero,
      mul_zero, add_zero]
    norm_num
  refine ⟨?_, ?_, ?_⟩
  · simp only [claimed_debug_passes, List.length_cons, List.length_nil, Nat.min_self,
      List.range_succ, List.range_zero, List.nil_append, List.all_cons, List.all_nil,
      List.getD_cons_zero, hc, Bool.and_self]
  · simp only [log_apply_debug_passes, List.length_cons, List.length_nil, Nat.min_self,
      List.range_succ, List.range_zero, List.nil_append, List.all_cons, List.all_nil,
      List.getD_cons_zero, hd, Bool.false_and]
  · simp only [log_apply_debug_mismatches, List.length_cons, List.length_nil, Nat.min_self,
      List.range_succ, List.range_zero, List.nil_append, List.filterMap_cons,
      List.filterMap_nil, List.getD_cons_zero, hd, cond_false]

/-- C2 amended: `log_apply` with `debug=True` compares the accelerated result against the
reference entry by entry using `torch.isclose`'s DEFAULT tolerances (`rtol=1e-5`,
`atol=1e-8`; the `_isclose` helper with `5e-5`/`5e-7` exists but its call is commented
out), and the surfaced mismatches are exactly the entries that disagree beyond that
default tolerance, each with its index and both values, before the assert fails. -/
theorem log_apply_debug_check_spec (cxx py : List ℚ) :
    (log_apply_debug_passes cxx py = true ↔
      ∀ i, i < min cxx.length py.length →
        torch_isclose_default (cxx.getD i 0) (py.getD i 0) = true) ∧
    (∀ i a b, (i, a, b) ∈ log_apply_debug_mismatches cxx py ↔
      (i < min cxx.length py.length ∧ a = cxx.getD i 0 ∧ b = py.getD i 0 ∧
        torch_isclose_default a b = false)) := by
  constructor
  · simp [log_apply_debug_passes, List.all_eq_true, List.mem_range]
  · intro i a b
    simp only [log_apply_debug_mismatches, List.mem_filterMap, List.mem_range]
    constructor
    · rintro ⟨j, hj, hfj⟩
      cases hcj : torch_isclose_default (cxx.getD j 0) (py.getD j 0) with
      | true =>
        rw [hcj] at hfj
        exact absurd hfj (by simp)
      | false =>
        rw [hcj] at hfj
        simp only [cond_false, Option.some.injEq, Prod.mk.injEq] at hfj
        obtain ⟨h1, h2, h3⟩ := hfj
        subst h1; subst h2; subst h3
        exact ⟨hj, rfl, rfl, hcj⟩
    · rintro ⟨hi, ha, hb, hcl⟩
      refine ⟨i, hi, ?_⟩
      subst ha; subst hb
      rw [hcl, cond_false]

/-- C2 amendment witness: on the concrete pair `([0], [0])` the debug check passes. -/
theorem log_apply_debug_check_spec_witness :
    log_apply_debug_passes [0] [0] = true := by
  apply (log_apply_debug_check_spec [0] [0]).1.mpr
  intro i hi
  have h0 : i = 0 := by simpa using hi
  subst h0
  norm_num [torch_isclose_default, torch_isclose]

theorem foldl_max_map_add (l : List ℚ) (c : ℚ) :
    ∀ a, (l.map (fun v => v + c)).foldl max (a + c) = l.foldl max a + c := by
  induction l with
  | nil => intro a; rfl
  | cons b t ih =>
    intro a
    simp only [List.map_cons, List.foldl_cons]
    rw [max_add_add_right, ih]

theorem tensor_max_shift (x : List ℚ) (c : ℚ) (hx : x ≠ []) :
    tensor_max (x.map (fun v => v + c)) = tensor_max x + c := by
  cases x with
  | nil => exact absurd rfl hx
  | cons a t =>
    show ((a :: t).map (fun v => v + c)).foldl max (a + c) = (a :: t).foldl max a + c
    simp only [List.map_cons, List.foldl_cons]
    rw [max_add_add_right]
    exact foldl_max_map_add t c (max a a)

theorem sum_map_div (l : List ℚ) (s : ℚ) : (l.map (fun v => v / s)).sum = l.sum / s := by
  induction l with
  | nil => simp
  | cons a t ih => simp [ih, add_div]

/-- C7: for every non-empty input vector, `safe_exp(x, normalise=True)` sums to exactly 1,
and `safe_exp` is invariant under adding a constant to every entry (for both values of
`normalise`), in exact arithmetic; `pexp` stands for `torch.exp`, whose only property
used is strict positivity. -/
theorem safe_exp_invariants (pexp : ℚ → ℚ) (x : List ℚ) (c : ℚ)
    (hx : x ≠ []) (hp : ∀ q, 0 < pexp q) :
    (safe_exp pexp x true).sum = 1 ∧
    (∀ normalise, safe_exp pexp (x.map (fun v => v + c)) normalise
        = safe_exp pexp x normalise) := by
  have hy : ∀ a ∈ x.map (fun v => pexp (v - tensor_max x)), 0 < a := by
    intro a ha
    obtain ⟨v, _, hv⟩ := List.mem_map.mp ha
    exact hv ▸ hp _
  have hyne : x.map (fun v => pexp (v - tensor_max x)) ≠ [] := by
    cases x with
    | nil => exact absurd rfl hx
    | cons a t => simp
  have hsum : 0 < (x.map (fun v => pexp (v - tensor_max x))).sum :=
    List.sum_pos _ hy hyne
  constructor
  · show ((x.map (fun v => pexp (v - tensor_max x))).map
        (fun v => v / (x.map (fun v => pexp (v - tensor_max x))).sum)).sum = 1
    rw [sum_map_div]
    exact div_self (ne_of_gt hsum)
  · have hshift : (x.map (fun v => v + c)).map
        (fun v => pexp (v - tensor_max (x.map (fun v => v + c))))
        = x.map (fun v => pexp (v - tensor_max x)) := by
      rw [tensor_max_shift x c hx, List.map_map]
      refine List.map_congr_left ?_
      intro a _
      show pexp (a + c - (tensor_max x + c)) = pexp (a - tensor_max x)
      ring_nf
    intro normalise
    cases normalise with
    | false =>
      show (x.map (fun v => v + c)).map
          (fun v => pexp (v - tensor_max (x.map (fun v => v + c))))
          = x.map (fun v => pexp (v - tensor_max x))
      exact hshift
    | true =>
      show ((x.map (fun v => v + c)).map
            (fun v => pexp (v - tensor_max (x.map (fun v => v + c))))).map _
          = (x.map (fun v => pexp (v - tensor_max x))).map _
      rw [hshift]

/-- C7 witness: with `pexp` the constant function 1 (strictly positive) and the concrete
vector `[0, 5]`, shifted by 3, both invariants hold. -/
theorem safe_exp_invariants_witness :
    (safe_exp (fun _ => 1) [0, 5] true).sum = 1 ∧
    (∀ normalise, safe_exp (fun _ => 1) (([0, 5] : List ℚ).map (fun v => v + 3)) normalise
        = safe_exp (fun _ => 1) [0, 5] normalise) :=
  safe_exp_invariants (fun _ => 1) [0, 5] 3 (by simp) (fun _ => one_pos)

theorem firstFalse_of_all_true (m : List Bool) (h : ∀ b ∈ m, b = true) :
    firstFalse m = none := by
  induction m with
  | nil => rfl
  | cons b t ih =>
    have hb := h b (List.mem_cons_self b t)
    subst hb
    show (firstFalse t).map (fun i => i + 1) = none
    rw [ih (fun x hx => h x (List.mem_cons_of_mem _ hx))]
    rfl

theorem firstFalse_eq_some (m : List Bool) :
    ∀ j, j < m.length → m.getD j true = false →
      (∀ i, i < j → m.getD i true = true) → firstFalse m = some j := by
  induction m with
  | nil =>
    intro j hj _ _
    exact absurd hj (by simp)
  | cons b t ih =>
    intro j hj hf hprev
    cases j with
    | zero =>
      simp only [List.getD_cons_zero] at hf
      subst hf
      rfl
    | succ k =>
      have hb : b = true := by simpa using hprev 0 (Nat.succ_pos k)
      subst hb
      show (firstFalse t).map (fun i => i + 1) = some (k + 1)
      rw [ih k (by simpa using hj) (by simpa using hf)
        (fun i hik => by simpa using hprev (i + 1) (by omega))]
      rfl

theorem firstTrue_eq_some (m : List Bool) :
    ∀ j, j < m.length → m.getD j false = true →
      (∀ i, i < j → m.getD i false = false) → firstTrue m = some j := by
  induction m with
  | nil =>
    intro j hj _ _
    exact absurd hj (by simp)
  | cons b t ih =>
    intro j hj hf hprev
    cases j with
    | zero =>
      simp only [List.getD_cons_zero] at hf
      subst hf
      rfl
    | succ k =>
      have hb : b = false := by simpa using hprev 0 (Nat.succ_pos k)
      subst hb
      show (firstTrue t).map (fun i => i + 1) = some (k + 1)
      rw [ih k (by simpa using hj) (by simpa using hf)
        (fun i hik => by simpa using hprev (i + 1) (by omega))]
      rfl

theorem window_mask_length (taus : List ℚ) (c : ℚ) :
    (window_mask taus c).length = taus.length := by
  simp [window_mask]

theorem window_mask_getD (taus : List ℚ) (c : ℚ) (i : Nat) (hi : i < taus.length) :
    (window_mask taus c).getD i true = decide ((i : ℚ) < c * taus.getD i 0) := by
  unfold window_mask
  rw [List.getD_eq_getElem _ _ (by simpa using hi)]
  simp

theorem window_mask_getD_false (taus : List ℚ) (c : ℚ) (i : Nat) (hi : i < taus.length) :
    (window_mask taus c).getD i false = decide ((i : ℚ) < c * taus.getD i 0) := by
  unfold window_mask
  rw [List.getD_eq_getElem _ _ (by simpa using hi)]
  simp

theorem window_mask_any (taus : List ℚ) (c : ℚ) :
    ((window_mask taus c).any (fun b => b) = true) ↔
      ∃ i, i < taus.length ∧ (i : ℚ) < c * taus.getD i 0 := by
  simp [window_mask, List.any_eq_true, List.mem_map, List.mem_range]

theorem auto_window_of_none (taus : List ℚ) (c : ℚ)
    (h : ∀ i, i < taus.length → ¬ ((i : ℚ) < c * taus.getD i 0)) :
    auto_window taus c = taus.length - 1 := by
  have hany : ¬ ((window_mask taus c).any (fun b => b) = true) := by
    intro hcontra
    obtain ⟨i, hi, hci⟩ := (window_mask_any taus c).mp hcontra
    exact h i hi hci
  unfold auto_window
  rw [if_neg hany]

theorem auto_window_of_all (taus : List ℚ) (c : ℚ)
    (h : ∀ i, i < taus.length → (i : ℚ) < c * taus.getD i 0) :
    auto_window taus c = 0 := by
  have hmask : ∀ b ∈ window_mask taus c, b = true := by
    intro b hb
    simp only [window_mask, List.mem_map, List.mem_range] at hb
    obtain ⟨i, hi, hib⟩ := hb
    rw [← hib]
    exact decide_eq_true (h i hi)
  unfold auto_window
  by_cases hany : (window_mask taus c).any (fun b => b) = true
  · rw [if_pos hany]
    unfold np_argmin_bool
    rw [firstFalse_of_all_true _ hmask]
    rfl
  · rw [if_neg hany]
    cases taus with
    | nil => rfl
    | cons a t =>
      exfalso
      apply hany
      refine (window_mask_any _ c).mpr ⟨0, by simp, ?_⟩
      simpa using h 0 (by simp)

theorem auto_window_of_first_fail (taus : List ℚ) (c : ℚ) (j : Nat)
    (hj : j < taus.length) (hfail : ¬ ((j : ℚ) < c * taus.getD j 0))
    (hprev : ∀ i, i < j → (i : ℚ) < c * taus.getD i 0)
    (hex : ∃ i, i < taus.length ∧ (i : ℚ) < c * taus.getD i 0) :
    auto_window taus c = j := by
  have hlen : j < (window_mask taus c).length := by
    rw [window_mask_length]
    exact hj
  have hfj : (window_mask taus c).getD j true = false := by
    rw [window_mask_getD _ _ _ hj]
    exact decide_eq_false hfail
  have hpj : ∀ i, i < j → (window_mask taus c).getD i true = true := by
    intro i hij
    rw [window_mask_getD _ _ _ (lt_trans hij hj)]
    exact decide_eq_true (hprev i hij)
  unfold auto_window
  rw [if_pos ((window_mask_any taus c).mpr hex)]
  unfold np_argmin_bool
  rw [firstFalse_eq_some _ j hlen hfj hpj]
  rfl

theorem claimed_window_of_first_sat (taus : List ℚ) (c : ℚ) (j : Nat)
    (hj : j < taus.length) (hsat : (j : ℚ) < c * taus.getD j 0)
    (hprev : ∀ i, i < j → ¬ ((i : ℚ) < c * taus.getD i 0)) :
    claimed_window taus c = j := by
  have hlen : j < (window_mask taus c).length := by
    rw [window_mask_length]
    exact hj
  have hfj : (window_mask taus c).getD j false = true := by
    rw [window_mask_getD_false _ _ _ hj]
    exact decide_eq_true hsat
  have hpj : ∀ i, i < j → (window_mask taus c).getD i false = false := by
    intro i hij
    rw [window_mask_getD_false _ _ _ (lt_trans hij hj)]
    exact decide_eq_false (hprev i hij)
  unfold claimed_window
  rw [firstTrue_eq_some _ j hlen hfj hpj]

theorem matColumn_pair : matColumn [[2], [0]] 0 = [2, 0] := by
  simp [matColumn]

theorem np_mean_pair : np_mean [2, 0] = 1 := by
  norm_num [np_mean]

theorem autocov_pair_zero : autocov [1, -1] 0 = 2 := by
  norm_num [autocov, List.range_succ, List.getD_cons_zero, List.getD_cons_succ]

theorem autocov_pair_one : autocov [1, -1] 1 = -1 := by
  norm_num [autocov, List.range_succ, List.getD_cons_zero, List.getD_cons_succ]

theorem autocorr_function_pair : autocorr_function [2, 0] = [1, -(1 / 2)] := by
  norm_num [autocorr_function, np_mean_pair, autocov_pair_zero, autocov_pair_one,
    List.range_succ]

theorem avg_autocorr_pair : avg_autocorr [[2], [0]] = [1, -(1 / 2)] := by
  norm_num [avg_autocorr, List.range_succ, matColumn_pair, autocorr_function_pair,
    List.getD_cons_zero, List.getD_cons_succ]

theorem np_cumsum_pair : np_cumsum [1, -(1 / 2)] = [1, 1 / 2] := by
  norm_num [np_cumsum, List.range_succ, List.take_succ_cons, List.take_zero]

theorem tausOf_pair : tausOf [[2], [0]] = [1, 0] := by
  unfold tausOf
  rw [avg_autocorr_pair, np_cumsum_pair]
  norm_num

theorem auto_window_pair : auto_window [1, 0] 5 = 1 := by
  apply auto_window_of_first_fail [1, 0] 5 1 (by norm_num)
  · norm_num [List.getD_cons_zero, List.getD_cons_succ]
  · intro i hi
    have hi0 : i = 0 := by omega
    subst hi0
    norm_num [List.getD_cons_zero]
  · exact ⟨0, by norm_num, by norm_num [List.getD_cons_zero]⟩

theorem claimed_window_pair : claimed_window [1, 0] 5 = 0 := by
  apply claimed_window_of_first_sat [1, 0] 5 0 (by norm_num)
  · norm_num [List.getD_cons_zero]
  · intro i hi
    exact absurd hi (by omega)

/-- C3 counterexample: on the concrete input `x = [[2], [0]]` (two time steps, one chain)
with `c = 5`, the averaged autocorrelation is `[1, -1/2]` and `taus = [1, 0]`; the code
(`np.argmin` of the boolean mask `[True, False]`) selects index 1 and returns `0`, while
the claim's rule ("smallest index M with M < c * taus[M]") selects index 0 and would
return `1` — so the claim mis-describes `_auto_window`. -/
theorem integrated_autocorr_time_counterexample :
    integrated_autocorr_time [[2], [0]] 5 = 0 ∧
    (tausOf [[2], [0]]).getD (claimed_window (tausOf [[2], [0]]) 5) 0 = 1 := by
  constructor
  · unfold integrated_autocorr_time
    rw [tausOf_pair, auto_window_pair]
    norm_num [List.getD_cons_zero, List.getD_cons_succ]
  · rw [tausOf_pair, claimed_window_pair]
    norm_num [List.getD_cons_zero]

/-- C3 amended: `integrated_autocorr_time(x, c)` averages the per-chain autocorrelation
functions, forms `taus = 2*cumsum - 1`, and returns `taus` at the window chosen by
`np.argmin` of the mask `M < c*taus[M]`: that is the SMALLEST index at which `M < c*taus[M]`
FAILS when the mask holds somewhere and fails somewhere (index 0 when the mask holds
everywhere), and the last index when the mask holds nowhere — not the smallest index
satisfying `M < c*taus[M]` as the claim states. -/
theorem integrated_autocorr_time_window_spec (x : List (List ℚ)) (c : ℚ) :
    integrated_autocorr_time x c = (tausOf x).getD (auto_window (tausOf x) c) 0 ∧
    ((∀ i, i < (tausOf x).length → ¬ ((i : ℚ) < c * (tausOf x).getD i 0)) →
        auto_window (tausOf x) c = (tausOf x).length - 1) ∧
    ((∀ i, i < (tausOf x).length → (i : ℚ) < c * (tausOf x).getD i 0) →
        auto_window (tausOf x) c = 0) ∧
    (∀ j, j < (tausOf x).length → ¬ ((j : ℚ) < c * (tausOf x).getD j 0) →
      (∀ i, i < j → (i : ℚ) < c * (tausOf x).getD i 0) →
      (∃ i, i < (tausOf x).length ∧ (i : ℚ) < c * (tausOf x).getD i 0) →
        auto_window (tausOf x) c = j) :=
  ⟨rfl, auto_window_of_none _ c, auto_window_of_all _ c,
    fun j hj hf hp hex => auto_window_of_first_fail _ c j hj hf hp hex⟩

/-- C3 amendment witness: on `x = [[2], [0]]`, `c = 5` (so `taus = [1, 0]`), index 1 is
the first failing index and the code's window is 1. -/
theorem integrated_autocorr_time_window_spec_witness :
    auto_window (tausOf [[2], [0]]) 5 = 1 := by
  refine (integrated_autocorr_time_window_spec [[2], [0]] 5).2.2.2 1 ?_ ?_ ?_ ?_
  · rw [tausOf_pair]
    norm_num
  · rw [tausOf_pair]
    norm_num [List.getD_cons_zero, List.getD_cons_succ]
  · intro i hi
    have hi0 : i = 0 := by omega
    subst hi0
    rw [tausOf_pair]
    norm_num [List.getD_cons_zero]
  · refine ⟨0, ?_, ?_⟩
    · rw [tausOf_pair]
      norm_num
    · rw [tausOf_pair]
      norm_num [List.getD_cons_zero]

theorem foldl_sweepStep_add (pexp : ℚ → ℚ) (lp : Int → ℚ) (st : ChainStreams)
    (sweep_size k : Nat) (L : List Nat) :
    ∀ (c : ChainState) (a : Nat),
      L.foldl (sweepStepFn pexp lp st sweep_size k) (c, a)
        = ((L.foldl (sweepStepFn pexp lp st sweep_size k) (c, 0)).1,
           a + (L.foldl (sweepStepFn pexp lp st sweep_size k) (c, 0)).2) := by
  induction L with
  | nil => intro c a; simp
  | cons j t ih =>
    intro c a
    simp only [List.foldl_cons, sweepStepFn, Nat.zero_add]
    rw [ih, ih _ (if (mcStep pexp lp c (st.kernel (k * sweep_size + j) c.state)
      (st.u (k * sweep_size + j))).2 then 1 else 0)]
    simp [Nat.add_assoc]

theorem sweepChain_add (pexp : ℚ → ℚ) (lp : Int → ℚ) (st : ChainStreams)
    (sweep_size k : Nat) (c : ChainState) (a : Nat) :
    sweepChain pexp lp st sweep_size k (c, a)
      = ((sweepChain pexp lp st sweep_size k (c, 0)).1,
         a + (sweepChain pexp lp st sweep_size k (c, 0)).2) := by
  unfold sweepChain
  exact foldl_sweepStep_add pexp lp st sweep_size k _ c a

theorem prodChain_acc_sum (pexp : ℚ → ℚ) (lp : Int → ℚ) (st : ChainStreams)
    (nd sweep_size : Nat) (ini : Int × ℚ) (i : Nat) :
    (prodChain pexp lp st nd sweep_size ini i).2
      = ((List.range i).map (fun k =>
          sweepAccepts pexp lp st sweep_size (nd + k)
            (prodChain pexp lp st nd sweep_size ini k).1)).sum := by
  induction i with
  | zero => rfl
  | succ m ih =>
    have hsplit : prodChain pexp lp st nd sweep_size ini (m + 1)
        = sweepChain pexp lp st sweep_size (nd + m)
            ((prodChain pexp lp st nd sweep_size ini m).1,
             (prodChain pexp lp st nd sweep_size ini m).2) := by
      show prodChain pexp lp st nd sweep_size ini (m + 1)
        = sweepChain pexp lp st sweep_size (nd + m) (prodChain pexp lp st nd sweep_size ini m)
      rfl
    rw [hsplit, sweepChain_add, List.range_succ, List.map_append, List.sum_append]
    simp [sweepAccepts, ih, Nat.add_comm]

theorem bufFold_spec (pexp : ℚ → ℚ) (lp : Int → ℚ) (st : ChainStreams)
    (nd sweep_size : Nat) (ini : Int × ℚ) (m : Nat) :
    (∀ i, i ≤ m → (bufFold pexp lp st nd sweep_size ini m).1 i
        = (prodChain pexp lp st nd sweep_size ini i).1) ∧
    (bufFold pexp lp st nd sweep_size ini m).2
        = (prodChain pexp lp st nd sweep_size ini m).2 := by
  induction m with
  | zero =>
    constructor
    · intro i hi
      have hi0 : i = 0 := by omega
      subst hi0
      rfl
    · rfl
  | succ m ih =>
    have hstep : bufFold pexp lp st nd sweep_size ini (m + 1)
        = (fun i => if i = m + 1
              then (sweepChain pexp lp st sweep_size (nd + m)
                ((bufFold pexp lp st nd sweep_size ini m).1 m,
                 (bufFold pexp lp st nd sweep_size ini m).2)).1
              else (bufFold pexp lp st nd sweep_size ini m).1 i,
           (sweepChain pexp lp st sweep_size (nd + m)
              ((bufFold pexp lp st nd sweep_size ini m).1 m,
               (bufFold pexp lp st nd sweep_size ini m).2)).2) := by
      unfold bufFold
      rw [List.range_succ, List.foldl_append]
      rfl
    have hpair : ((bufFold pexp lp st nd sweep_size ini m).1 m,
        (bufFold pexp lp st nd sweep_size ini m).2)
          = prodChain pexp lp st nd sweep_size ini m := by
      rw [ih.1 m (le_refl m), ih.2]
    have hsweep : sweepChain pexp lp st sweep_size (nd + m)
        ((bufFold pexp lp st nd sweep_size ini m).1 m,
         (bufFold pexp lp st nd sweep_size ini m).2)
          = prodChain pexp lp st nd sweep_size ini (m + 1) := by
      rw [hpair]
      rfl
    constructor
    · intro i hi
      rw [hstep]
      by_cases him : i = m + 1
      · subst him
        simp [hsweep]
      · simp only [if_neg him]
        exact ih.1 i (by omega)
    · rw [hstep]
      simp only []
      rw [hsweep]

theorem getD_map_of_lt {α β : Type} (L : List α) (f : α → β) (j : Nat)
    (hj : j < L.length) (d : β) (d' : α) : (L.map f).getD j d = f (L.getD j d') := by
  rw [List.getD_eq_getElem _ _ (by simpa using hj), List.getElem_map,
    List.getD_eq_getElem _ _ hj]

/-- C1: at every elementary step of a sweep inside `metropolis_process` and for every
chain, the proposal is accepted iff the proposed norm is strictly positive and
`u * norm' / norm <= pexp(log_prob' - log_prob)`; on acceptance the chain's state, norm,
and log-probability are replaced together by the proposed values, and otherwise all three
are retained unchanged.  (`mcStep` is the elementary step, lines 200-209, iterated
`sweep_size` times by `sweepChain` inside `metropolis_process`; `pexp` is `torch.exp`.) -/
theorem mcStep_accept_iff (pexp : ℚ → ℚ) (lp : Int → ℚ) (c : ChainState)
    (s' : Int) (n' uu : ℚ) :
    ((mcStep pexp lp c (s', n') uu).2 = true ↔
      (0 < n' ∧ uu * n' / c.norm ≤ pexp (lp s' - c.log_prob))) ∧
    ((0 < n' ∧ uu * n' / c.norm ≤ pexp (lp s' - c.log_prob)) →
      (mcStep pexp lp c (s', n') uu).1 = ⟨s', n', lp s'⟩) ∧
    (¬ (0 < n' ∧ uu * n' / c.norm ≤ pexp (lp s' - c.log_prob)) →
      (mcStep pexp lp c (s', n') uu).1 = c) := by
  by_cases h : 0 < n' ∧ uu * n' / c.norm ≤ pexp (lp s' - c.log_prob)
  · refine ⟨?_, fun _ => ?_, fun hc => absurd h hc⟩
    · simp [mcStep, h]
    · simp [mcStep, h]
  · refine ⟨?_, fun hc => absurd hc h, fun _ => ?_⟩
    · simp [mcStep, h]
    · simp [mcStep, h]

/-- C1 witness: with `pexp` constant 1, `lp` constant 0, current chain `(0, 1, 0)`,
proposal `(1, 1)` and uniform draw `1/2`, the acceptance condition holds and the chain is
replaced by the proposed triple. -/
theorem mcStep_accept_iff_witness :
    (mcStep (fun _ => 1) (fun _ => 0) ⟨0, 1, 0⟩ (1, 1) (1 / 2)).1 = ⟨1, 1, 0⟩ := by
  apply (mcStep_accept_iff (fun _ => 1) (fun _ => 0) ⟨0, 1, 0⟩ 1 1 (1 / 2)).2.1
  constructor
  · norm_num
  · show (1 : ℚ) / 2 * 1 / 1 ≤ 1
    norm_num

/-- C5: the per-chain acceptance counter is exactly 0 when production begins (right after
the `number_discarded` thermalisation sweeps, `accepted.fill_(0)` on line 216), and the
acceptance diagnostic returned by `metropolis_process` is the sum of the acceptances of
the `number_samples - 1` production sweeps alone — thermalisation-phase accepts are not
counted — divided by `(number_samples - 1) * sweep_size`. -/
theorem metropolis_acceptance_production_only (pexp : ℚ → ℚ) (lp : Int → ℚ)
    (chains : List ((Int × ℚ) × ChainStreams)) (n nd sweep_size : Nat) (hn : 1 ≤ n) :
    (∀ st ini, (prodChain pexp lp st nd sweep_size ini 0).2 = 0) ∧
    (∃ s l a, metropolis_process pexp lp chains n nd sweep_size = some (s, l, a) ∧
      ∀ j, j < chains.length →
        a.getD j FloatVal.nan
          = ieee_div
              ((((List.range (n - 1)).map (fun k =>
                  sweepAccepts pexp lp (chains.getD j default).2 sweep_size (nd + k)
                    (prodChain pexp lp (chains.getD j default).2 nd sweep_size
                      (chains.getD j default).1 k).1)).sum : Nat) : ℚ)
              (((n - 1) * sweep_size : Nat) : ℚ)) := by
  refine ⟨fun _ _ => rfl, ?_⟩
  unfold metropolis_process
  rw [if_neg (by omega)]
  refine ⟨_, _, _, rfl, ?_⟩
  intro j hj
  rw [getD_map_of_lt _ _ j (by simpa using hj) _
    (runChainBuf pexp lp (default : ChainStreams) n nd sweep_size (0, 0)),
    getD_map_of_lt _ _ j hj _ default]
  have hacc : (runChainBuf pexp lp (chains.getD j default).2 n nd sweep_size
      (chains.getD j default).1).2
      = ((List.range (n - 1)).map (fun k =>
          sweepAccepts pexp lp (chains.getD j default).2 sweep_size (nd + k)
            (prodChain pexp lp (chains.getD j default).2 nd sweep_size
              (chains.getD j default).1 k).1)).sum := by
    unfold runChainBuf
    rw [(bufFold_spec pexp lp (chains.getD j default).2 nd sweep_size
      (chains.getD j default).1 (n - 1)).2]
    exact prodChain_acc_sum pexp lp (chains.getD j default).2 nd sweep_size
      (chains.getD j default).1 (n - 1)
  rw [hacc]

/-- C5 witness: with no chains, one sample, no thermalisation, the production counter of
any chain starts at exactly 0. -/
theorem metropolis_acceptance_production_only_witness :
    (prodChain (fun _ => 1) (fun _ => 0) (default : ChainStreams) 0 1 (0, 1) 0).2 = 0 :=
  ((metropolis_acceptance_production_only (fun _ => 1) (fun _ => 0) [] 1 0 1
      (le_refl 1)).1) default (0, 1)

/-- C8: calling `metropolis_process` with `number_samples = 1` does not fail with a
division-by-zero error: the assert passes, the production loop runs zero times, the one
retained sample per chain is the post-thermalisation state, and the acceptance
diagnostic is the IEEE result of `0 / 0`, i.e. NaN, for every chain. -/
theorem metropolis_single_sample_nan (pexp : ℚ → ℚ) (lp : Int → ℚ)
    (chains : List ((Int × ℚ) × ChainStreams)) (nd sweep_size : Nat) :
    metropolis_process pexp lp chains 1 nd sweep_size
      = some
          ([chains.map (fun ch => (thermalRun pexp lp ch.2 nd sweep_size ch.1).1.state)],
           [chains.map (fun ch => (thermalRun pexp lp ch.2 nd sweep_size ch.1).1.log_prob)],
           chains.map (fun _ => FloatVal.nan)) := by
  unfold metropolis_process
  rw [if_neg (by omega)]
  simp only [Option.some.injEq, Prod.mk.injEq]
  refine ⟨?_, ?_, ?_⟩
  · simp [runChainBuf, bufFold, List.map_map, Function.comp, List.range_succ]
  · simp [runChainBuf, bufFold, List.map_map, Function.comp, List.range_succ]
  · rw [List.map_map]
    apply List.map_congr_left
    intro ch _
    show ieee_div ((runChainBuf pexp lp ch.2 1 nd sweep_size ch.1).2 : ℚ)
      (((1 - 1) * sweep_size : Nat) : ℚ) = FloatVal.nan
    have h2 : (runChainBuf pexp lp ch.2 1 nd sweep_size ch.1).2 = 0 := rfl
    rw [h2]
    norm_num [ieee_div]

/-- C9: for `number_samples >= 1`, `metropolis_process` returns sample-major arrays of
shape `number_samples x number_chains` in which index 0 holds, for every chain, the state
immediately after the `number_discarded` thermalisation sweeps (the `states[0]` slot is
aliased by `current_state` and is therefore mutated in place during thermalisation), and
index `i` holds the state after `i` further production sweeps of `sweep_size` steps
each; `log_probs` is indexed identically. -/
theorem metropolis_sample_ordering (pexp : ℚ → ℚ) (lp : Int → ℚ)
    (chains : List ((Int × ℚ) × ChainStreams)) (n nd sweep_size : Nat) (hn : 1 ≤ n) :
    ∃ s l a, metropolis_process pexp lp chains n nd sweep_size = some (s, l, a) ∧
      s.length = n ∧ l.length = n ∧
      (∀ i, i < n → (s.getD i []).length = chains.length ∧
        (l.getD i []).length = chains.length) ∧
      (∀ i, i < n → ∀ j, j < chains.length →
        (s.getD i []).getD j 0
            = (prodChain pexp lp (chains.getD j default).2 nd sweep_size
                (chains.getD j default).1 i).1.state ∧
        (l.getD i []).getD j 0
            = (prodChain pexp lp (chains.getD j default).2 nd sweep_size
                (chains.getD j default).1 i).1.log_prob) ∧
      (∀ j, j < chains.length →
        (s.getD 0 []).getD j 0
          = (thermalRun pexp lp (chains.getD j default).2 nd sweep_size
              (chains.getD j default).1).1.state) := by
  unfold metropolis_process
  rw [if_neg (by omega)]
  have hslot : ∀ (ch : (Int × ℚ) × ChainStreams) (i : Nat), i < n →
      (runChainBuf pexp lp ch.2 n nd sweep_size ch.1).1 i
        = (prodChain pexp lp ch.2 nd sweep_size ch.1 i).1 := by
    intro ch i hi
    unfold runChainBuf
    exact (bufFold_spec pexp lp ch.2 nd sweep_size ch.1 (n - 1)).1 i (by omega)
  have hrangeD : ∀ i, i < n → (List.range n).getD i 0 = i := by
    intro i hi
    rw [List.getD_eq_getElem _ _ (by simpa using hi), List.getElem_range]
  refine ⟨_, _, _, rfl, by simp, by simp, ?_, ?_, ?_⟩
  · intro i hi
    constructor
    · rw [getD_map_of_lt _ _ i (by simpa using hi) _ 0]
      simp
    · rw [getD_map_of_lt _ _ i (by simpa using hi) _ 0]
      simp
  · intro i hi j hj
    constructor
    · rw [getD_map_of_lt _ _ i (by simpa using hi) _ 0,
        getD_map_of_lt _ _ j (by simpa using hj) _
          (runChainBuf pexp lp (default : ChainStreams) n nd sweep_size (0, 0)),
        getD_map_of_lt _ _ j hj _ default, hrangeD i hi, hslot _ i hi]
    · rw [getD_map_of_lt _ _ i (by simpa using hi) _ 0,
        getD_map_of_lt _ _ j (by simpa using hj) _
          (runChainBuf pexp lp (default : ChainStreams) n nd sweep_size (0, 0)),
        getD_map_of_lt _ _ j hj _ default, hrangeD i hi, hslot _ i hi]
  · intro j hj
    rw [getD_map_of_lt _ _ 0 (by simpa using hn) _ 0,
      getD_map_of_lt _ _ j (by simpa using hj) _
        (runChainBuf pexp lp (default : ChainStreams) n nd sweep_size (0, 0)),
      getD_map_of_lt _ _ j hj _ default, hrangeD 0 (by omega), hslot _ 0 (by omega)]
    rfl

/-- C9 witness: one chain starting at `(0, 1)` with the default streams, two samples, one
thermalisation sweep, sweep size one: `metropolis_process` succeeds and returns two
samples. -/
theorem metropolis_sample_ordering_witness :
    ∃ s l a, metropolis_process (fun _ => (1 : ℚ)) (fun _ => (0 : ℚ))
        [((0, 1), default)] 2 1 1 = some (s, l, a) ∧ s.length = 2 := by
  obtain ⟨s, l, a, hmp, hs, _⟩ := metropolis_sample_ordering (fun _ => 1) (fun _ => 0)
    [((0, 1), default)] 2 1 1 (by omega)
  exact ⟨s, l, a, hmp, hs⟩

/-- C4: `sample_exactly` cannot perform the validation and sampling the claim describes:
the reference to the undefined name `xs` on line 260 of monte_carlo.py raises a
`NameError` on every call (for every basis, log-probability function, and options), before
the rank/device checks and the multinomial draw are ever reached. -/
theorem sample_exactly_raises_name_error (basisStates : List Int)
    (log_prob_fn : List Int → List ℚ) (number_samples number_chains : Nat) :
    sample_exactly basisStates log_prob_fn number_samples number_chains
      = Except.error (PyError.nameError ("xs")) := rfl

end Theorems

end NQS
